import Mathlib

/-!
Verification of the basic-emu-frontend harness against its specification.

The frontend drives an external emulation core ("Core") from two contexts:
an audio callback that pulls samples (src/lib.rs `get_sample` closure,
src/audio/mod.rs `output_data_fn`) and a display/input loop
(src/display/mod.rs `Display::run`).  The Core itself is an external
collaborator behind the `Core` trait of src/lib.rs; following the spec's
data model (§3, §6, glossary) its pending samples form a FIFO queue and it
keeps a per-key pressed state.  Everything the frontend does to the Core is
recorded in traces so that claims about "which context calls what" can be
stated and proved.
-/

namespace EmuFrontend

/-- Audio samples are `f32` in the source; the frontend never does arithmetic
on them (it only moves them around and returns the literal `0.0`), so they
are modelled as rationals. -/
abbrev Sample := Rat

/-- SyncModes enum from src/lib.rs:20-27. `VSync` is the spec's FrameLocked,
`AudioCallback` is the spec's AudioLocked. -/
inductive SyncModes
  | VSync
  | AudioCallback
deriving DecidableEq, Repr

/-- Calls the frontend makes on the Core, used to build traces. -/
inductive CoreCall
  | runInst
  | runFrame
  | getSample
  | pressKey (i : Nat)
  | releaseKey (i : Nat)
  | draw
deriving DecidableEq, Repr

/-- Modelled from the spec: the state of the external emulation core behind
the `Core` trait of src/lib.rs:29-42.  The spec (§3, glossary) describes a
pending-sample FIFO ("Pending sample count: size of the Core's internal FIFO
of audio samples awaiting consumption") and a per-key pressed state; the
remaining emulation state is opaque and kept abstract as `emu : α`.
`run_inst`/`run_frame` are arbitrary state transformers supplied as
parameters wherever they are needed. -/
structure CoreState (α : Type) where
  queue : List Sample
  keys : Nat → Bool
  emu : α

/-- Core trait: `get_sample_queue_length`, the pending-sample count. -/
def CoreState.get_sample_queue_length (c : CoreState α) : Nat :=
  c.queue.length

/-- Modelled from the spec: `get_sample` on the Core trait (the spec's
`pop_sample`) returns the oldest pending sample and removes it from the
FIFO. -/
def CoreState.get_sample (c : CoreState α) : Sample × CoreState α :=
  (c.queue.headI, { c with queue := c.queue.tail })

/-- Core trait: `get_key_pressed`. -/
def CoreState.get_key_pressed (c : CoreState α) (i : Nat) : Bool :=
  c.keys i

/-- Modelled from the spec: `press_key` sets the pressed state of logical key
`i` to true. -/
def CoreState.press_key (c : CoreState α) (i : Nat) : CoreState α :=
  { c with keys := fun j => if j = i then true else c.keys j }

/-- Modelled from the spec: `release_key` sets the pressed state of logical
key `i` to false. -/
def CoreState.release_key (c : CoreState α) (i : Nat) : CoreState α :=
  { c with keys := fun j => if j = i then false else c.keys j }

/-! ### The sample-producer closure (src/lib.rs:56-75)

The `AudioCallback` branch loops `while core.get_sample_queue_length() == 0
{ core.run_inst(); }` and then returns `core.get_sample()`.  The loop is a
priori unbounded, so it is embedded with fuel; `none` means the fuel ran out
before the queue became non-empty.  The trace of Core calls made is returned
alongside. -/

/-- The instruction loop of the `AudioCallback` branch (src/lib.rs:62-64):
while the sample queue is empty, call `run_inst`.  Returns the state at loop
exit and the trace of calls. -/
def audioLoop (run_inst : CoreState α → CoreState α) :
    Nat → CoreState α → Option (CoreState α × List CoreCall)
  | fuel, c =>
    if c.get_sample_queue_length = 0 then
      match fuel with
      | 0 => none
      | n + 1 =>
        match audioLoop run_inst n (run_inst c) with
        | none => none
        | some (c', tr) => some (c', CoreCall.runInst :: tr)
    else
      some (c, [])

/-- The `AudioCallback` branch of the `get_sample` closure
(src/lib.rs:60-66): run instructions until a sample is ready, then pop and
return it. -/
def get_sample_audio (run_inst : CoreState α → CoreState α) (fuel : Nat)
    (c : CoreState α) : Option (Sample × CoreState α × List CoreCall) :=
  match audioLoop run_inst fuel c with
  | none => none
  | some (c', tr) =>
    let p := c'.get_sample
    some (p.1, p.2, tr ++ [CoreCall.getSample])

/-- The drain loop of the `VSync` branch (src/lib.rs:69-71): while the
sample queue is non-empty, pop and discard a sample.  Terminates because
each pop shortens the queue. -/
def drainLoop (c : CoreState α) : CoreState α × List CoreCall :=
  if 0 < c.get_sample_queue_length then
    let r := drainLoop (c.get_sample).2
    (r.1, CoreCall.getSample :: r.2)
  else
    (c, [])
termination_by c.queue.length
decreasing_by
  simp only [CoreState.get_sample, CoreState.get_sample_queue_length] at *
  cases h : c.queue with
  | nil => simp [h] at *
  | cons x xs => simp [h]

/-- The `VSync` branch of the `get_sample` closure (src/lib.rs:67-73):
dump all pending samples and return 0. -/
def get_sample_vsync (c : CoreState α) : Sample × CoreState α × List CoreCall :=
  let r := drainLoop c
  (0, r.1, r.2)

/-! ### The display loop (src/display/mod.rs)

Physical key identifiers (`winit::event::VirtualKeyCode` in the source) are
a finite enumeration with equality; they are kept abstract as a type `κ`
with decidable equality.  The physical poll state of a tick
(`input.key_pressed` / `input.key_held` from `WinitInputHelper`) is a pair
of predicates on physical keys. -/

/-- Observable events of one display-loop tick: calls on the Core plus the
outbound edge events emitted through the `wasm_imports` bindings
(src/display/mod.rs:17-24). -/
inductive Event
  | call (c : CoreCall)
  | onKeyPressed (i : Nat)
  | onKeyReleased (i : Nat)
deriving DecidableEq, Repr

/-- The press/release condition of src/display/mod.rs:203-204: a logical key
is asserted when its mapped physical key is in the override list, or is
physically just-pressed, or physically held. -/
def keyCond [DecidableEq κ] (overrides : List κ) (key_pressed key_held : κ → Bool)
    (k : κ) : Bool :=
  overrides.contains k || key_pressed k || key_held k

/-- One iteration of the key loop (src/display/mod.rs:201-217) for logical
index `i` mapped to physical key `k`: record the previous pressed state,
press or release according to `keyCond`, then emit an edge event through the
host bindings when the observed pressed state changed. -/
def keyStep [DecidableEq κ] (overrides : List κ) (key_pressed key_held : κ → Bool)
    (c : CoreState α) (i : Nat) (k : κ) : CoreState α × List Event :=
  let prev := c.get_key_pressed i
  let cond := keyCond overrides key_pressed key_held k
  let c1 := if cond then c.press_key i else c.release_key i
  (c1,
    [Event.call (if cond then CoreCall.pressKey i else CoreCall.releaseKey i)]
      ++ (if c1.get_key_pressed i && !prev then [Event.onKeyPressed i] else [])
      ++ (if !(c1.get_key_pressed i) && prev then [Event.onKeyReleased i] else []))

/-- The key loop of src/display/mod.rs:201-217, iterating over the keymap
with logical indices starting at `s` (the source starts at 0; the start
index is generalised for the induction). -/
def keyLoop [DecidableEq κ] (overrides : List κ) (key_pressed key_held : κ → Bool) :
    Nat → List κ → CoreState α → CoreState α × List Event
  | _, [], c => (c, [])
  | s, k :: rest, c =>
    let st := keyStep overrides key_pressed key_held c s k
    let r := keyLoop overrides key_pressed key_held (s + 1) rest st.1
    (r.1, st.2 ++ r.2)

/-- One input-batch tick of the event loop (src/display/mod.rs:197-221): run
the key loop over the whole keymap, then, when the sync mode is `VSync`,
call `run_frame` once. -/
def inputTick [DecidableEq κ] (sync_mode : SyncModes) (overrides keymap : List κ)
    (key_pressed key_held : κ → Bool) (run_frame : CoreState α → CoreState α)
    (c : CoreState α) : CoreState α × List Event :=
  let r := keyLoop overrides key_pressed key_held 0 keymap c
  if sync_mode = SyncModes.VSync then
    (run_frame r.1, r.2 ++ [Event.call CoreCall.runFrame])
  else
    r

/-- One redraw tick of the event loop (src/display/mod.rs:169-178): the only
Core call is `draw`. -/
def redrawTick (c : CoreState α) : CoreState α × List Event :=
  (c, [Event.call CoreCall.draw])

/-! ### Key overrides (src/display/mod.rs:26-53)

`KEY_OVERRIDES` is a `Vec<VirtualKeyCode>`; `press_key` pushes a decoded
key, `release_key` removes the first occurrence (if any) with
`Vec::swap_remove`.  Decoding a `JsValue` into a `VirtualKeyCode` can fail
(`into_serde`), which is modelled by a `decode` function into `Option κ`. -/

/-- Vec::swap_remove on a list: replace the element at `i` with the last
element, then drop the last element.  On an empty list (never reached in the
source) it is the identity. -/
def swapRemove (l : List κ) (i : Nat) : List κ :=
  match l.getLast? with
  | none => l
  | some last => (l.set i last).dropLast

/-- The exported `press_key` of src/display/mod.rs:32-39: if the value
decodes to a physical key, push it onto the override vector; otherwise do
nothing. -/
def press_key_override [DecidableEq κ] (decode : ρ → Option κ) (key_code : ρ)
    (l : List κ) : List κ :=
  match decode key_code with
  | some virtual_key => l ++ [virtual_key]
  | none => l

/-- The exported `release_key` of src/display/mod.rs:43-53: if the value
decodes to a physical key that occurs in the override vector, swap-remove
its first occurrence; otherwise do nothing. -/
def release_key_override [DecidableEq κ] (decode : ρ → Option κ) (key_code : ρ)
    (l : List κ) : List κ :=
  match decode key_code with
  | some virtual_key =>
    match l.findIdx? (fun value => value = virtual_key) with
    | some index => swapRemove l index
    | none => l
  | none => l

/-- An abstract operation on the override vector, for reasoning about call
sequences.  Keys are given post-decoding (a failed decode is a no-op in the
source and corresponds to omitting the operation). -/
inductive OvOp (κ : Type)
  | press (k : κ)
  | release (k : κ)
deriving DecidableEq, Repr

/-- Apply a sequence of override operations, oldest first. -/
def applyOvOps [DecidableEq κ] (ops : List (OvOp κ)) (l : List κ) : List κ :=
  ops.foldl
    (fun acc op =>
      match op with
      | OvOp.press k => press_key_override some k acc
      | OvOp.release k => release_key_override some k acc)
    l

/-! ### Keymap (src/keymap/mod.rs) -/

/-- Keymap struct of src/keymap/mod.rs:5-8. -/
structure Keymap (κ : Type) where
  keys : List κ

/-- Keymap::from_js (src/keymap/mod.rs:27-37): iterate over the input array
and push every entry that decodes to a physical key, silently skipping the
rest. -/
def Keymap.from_js (decode : ρ → Option κ) (array : List ρ) : Keymap κ :=
  { keys :=
      array.foldl
        (fun keys key_code =>
          match decode key_code with
          | some virtual_key => keys ++ [virtual_key]
          | none => keys)
        [] }

/-! ### The audio callback (src/audio/mod.rs) -/

/-- The `output_data_fn` closure of src/audio/mod.rs:28-32: for every slot of
the interleaved output buffer, call `get_sample` and write its return value.
The shared state the closure mutates through `get_sample` (the locked Core)
is threaded explicitly; `len` is the buffer length, i.e. frames × channels. -/
def output_data_fn (get_sample : σ → Sample × σ) : Nat → σ → List Sample × σ
  | 0, s => ([], s)
  | len + 1, s =>
    let p := get_sample s
    let r := output_data_fn get_sample len p.2
    (p.1 :: r.1, r.2)

/-! ### Audio stream configuration (src/audio/mod.rs:19-27) -/

/-- cpal::SupportedBufferSize: the buffer-size capability reported by the
device's default output configuration. -/
inductive SupportedBufferSize
  | range (min max : Nat)
  | unknown
deriving DecidableEq, Repr

/-- cpal::BufferSize as requested in the stream configuration. -/
inductive BufferSize
  | fixed (n : Nat)
  | defaultSize
deriving DecidableEq, Repr

/-- Relevant fields of cpal::SupportedStreamConfig (the device's default
output configuration). -/
structure SupportedStreamConfig where
  channels : Nat
  sample_rate : Nat
  buffer_size : SupportedBufferSize
deriving DecidableEq, Repr

/-- cpal::StreamConfig as built by AudioPlayer::new. -/
structure StreamConfig where
  channels : Nat
  sample_rate : Nat
  buffer_size : BufferSize
deriving DecidableEq, Repr

/-- The buffer-size choice of src/audio/mod.rs:19-22: with a reported range,
fix the size at max(min, 512); otherwise use the device default. -/
def min_buffer_size (supported : SupportedBufferSize) : BufferSize :=
  match supported with
  | SupportedBufferSize.range min _ => BufferSize.fixed (Nat.max min 512)
  | _ => BufferSize.defaultSize

/-- The stream configuration built in src/audio/mod.rs:23-27: channels and
sample rate from the device's default output configuration, buffer size from
`min_buffer_size`. -/
def mkStreamConfig (supported : SupportedStreamConfig) : StreamConfig :=
  { channels := supported.channels
    sample_rate := supported.sample_rate
    buffer_size := min_buffer_size supported.buffer_size }

/-! ## Basic lemmas about the drain loop -/

/-- The drain loop empties the queue and its trace is one `getSample` per
initially pending sample. -/
theorem drainLoop_spec :
    ∀ (q : List Sample) (c : CoreState α), c.queue = q →
      ((drainLoop c).1).queue = [] ∧
        (drainLoop c).2 = List.replicate q.length CoreCall.getSample := by
  intro q
  induction q with
  | nil =>
    intro c hc
    rw [drainLoop]
    simp [CoreState.get_sample_queue_length, hc]
  | cons x xs ih =>
    intro c hc
    rw [drainLoop]
    have hpos : 0 < c.get_sample_queue_length := by
      simp [CoreState.get_sample_queue_length, hc]
    have h2 : ((c.get_sample).2).queue = xs := by
      simp [CoreState.get_sample, hc]
    obtain ⟨h3, h4⟩ := ih _ h2
    simp only [if_pos hpos]
    exact ⟨h3, by simp [h4, hc, List.replicate_succ]⟩

/-! ## Claim theorems (first group) -/

/-- C2: in FrameLocked (VSync) mode, every invocation of the sample producer
returns 0.0, and immediately after the invocation the core's pending sample
count is zero (all pending samples were popped and discarded). -/
theorem C2_framelocked_drain (α : Type) (c : CoreState α) :
    (get_sample_vsync c).1 = 0 ∧
      ((get_sample_vsync c).2.1).get_sample_queue_length = 0 := by
  have h := drainLoop_spec c.queue c rfl
  refine ⟨rfl, ?_⟩
  simp [get_sample_vsync, CoreState.get_sample_queue_length, h.1]

/-- C8: when the device reports a configurable buffer-size range, the
stream's buffer size is fixed at max(device-reported minimum, 512) frames;
when no range is exposed, the device default buffer size is used; channels
and sample rate are taken from the device's default output configuration. -/
theorem C8_stream_config (supported : SupportedStreamConfig) :
    (mkStreamConfig supported).channels = supported.channels ∧
    (mkStreamConfig supported).sample_rate = supported.sample_rate ∧
    (∀ lo hi, supported.buffer_size = SupportedBufferSize.range lo hi →
        (mkStreamConfig supported).buffer_size = BufferSize.fixed (Nat.max lo 512)) ∧
    (supported.buffer_size = SupportedBufferSize.unknown →
        (mkStreamConfig supported).buffer_size = BufferSize.defaultSize) := by
  refine ⟨rfl, rfl, ?_, ?_⟩
  · intro lo hi h
    simp [mkStreamConfig, min_buffer_size, h]
  · intro h
    simp [mkStreamConfig, min_buffer_size, h]

/-- Witness for C8 at a concrete device configuration reporting the range
[256, 4096]: the chosen buffer size is Fixed 512. -/
theorem C8_stream_config_witness :
    (mkStreamConfig ⟨2, 44100, SupportedBufferSize.range 256 4096⟩).channels = 2 ∧
    (mkStreamConfig ⟨2, 44100, SupportedBufferSize.range 256 4096⟩).buffer_size
      = BufferSize.fixed 512 := by
  have h := C8_stream_config ⟨2, 44100, SupportedBufferSize.range 256 4096⟩
  exact ⟨h.1, by rw [h.2.2.1 256 4096 rfl]; rfl⟩

/-- The push loop of Keymap::from_js accumulates exactly the successfully
decoded entries, in order. -/
theorem from_js_foldl (decode : ρ → Option κ) :
    ∀ (array : List ρ) (acc : List κ),
      array.foldl
        (fun keys key_code =>
          match decode key_code with
          | some virtual_key => keys ++ [virtual_key]
          | none => keys)
        acc
        = acc ++ array.filterMap decode := by
  intro array
  induction array with
  | nil => intro acc; simp
  | cons x xs ih =>
    intro acc
    cases h : decode x with
    | none => simp [List.foldl_cons, h, ih]
    | some k => simp [List.foldl_cons, h, ih]

/-- C10: Keymap::from_js silently drops any input entry that fails to
decode: the resulting keymap is the in-order subsequence of successfully
decoded entries (List.filterMap), no error is reported (the function is
total), and the keymap's length is at most the input array's length. -/
theorem C10_from_js_drops_failures (decode : ρ → Option κ) (array : List ρ) :
    (Keymap.from_js decode array).keys = array.filterMap decode ∧
    (Keymap.from_js decode array).keys.length ≤ array.length := by
  have h : (Keymap.from_js decode array).keys = array.filterMap decode := by
    simpa [Keymap.from_js] using from_js_foldl decode array []
  exact ⟨h, by rw [h]; exact List.length_filterMap_le decode array⟩

/-! ## Lemmas about the AudioCallback instruction loop -/

/-- Characterization of a successful run of the instruction loop: it is
`run_inst` iterated `k` times for the first `k` at which the queue is
non-empty, with `k` at most the fuel. -/
theorem audioLoop_spec (run_inst : CoreState α → CoreState α) :
    ∀ (fuel : Nat) (c : CoreState α) (c' : CoreState α) (tr : List CoreCall),
      audioLoop run_inst fuel c = some (c', tr) →
      ∃ k, k ≤ fuel ∧ tr = List.replicate k CoreCall.runInst ∧
        c' = (run_inst)^[k] c ∧
        0 < c'.get_sample_queue_length ∧
        ∀ j, j < k → ((run_inst)^[j] c).get_sample_queue_length = 0 := by
  intro fuel
  induction fuel with
  | zero =>
    intro c c' tr h
    rw [audioLoop] at h
    by_cases hq : c.get_sample_queue_length = 0
    · simp [hq] at h
    · rw [if_neg hq] at h
      simp only [Option.some.injEq, Prod.mk.injEq] at h
      refine ⟨0, Nat.le_refl 0, by rw [← h.2]; rfl, by rw [← h.1]; rfl, ?_, by omega⟩
      rw [← h.1]
      exact Nat.pos_of_ne_zero hq
  | succ n ih =>
    intro c c' tr h
    rw [audioLoop] at h
    by_cases hq : c.get_sample_queue_length = 0
    · simp only [hq, reduceIte] at h
      cases hrec : audioLoop run_inst n (run_inst c) with
      | none => rw [hrec] at h; simp at h
      | some r =>
        rw [hrec] at h
        obtain ⟨c'', tr''⟩ := r
        simp only [Option.some.injEq, Prod.mk.injEq] at h
        obtain ⟨hc, htr⟩ := h
        obtain ⟨k, hk, htr', hc', hpos, hzero⟩ := ih (run_inst c) c'' tr'' hrec
        refine ⟨k + 1, by omega, ?_, ?_, ?_, ?_⟩
        · rw [← htr, htr', List.replicate_succ]
        · rw [← hc, hc', Function.iterate_succ_apply]
        · rw [← hc]; exact hpos
        · intro j hj
          cases j with
          | zero => simpa using hq
          | succ j' =>
            rw [Function.iterate_succ_apply]
            exact hzero j' (by omega)
    · rw [if_neg hq] at h
      simp only [Option.some.injEq, Prod.mk.injEq] at h
      refine ⟨0, Nat.zero_le _, by rw [← h.2]; rfl, by rw [← h.1]; rfl, ?_, by omega⟩
      rw [← h.1]
      exact Nat.pos_of_ne_zero hq

/-- If iterating `run_inst` `n` times from `c` makes the queue non-empty,
the instruction loop succeeds with fuel `n`. -/
theorem audioLoop_some_of_pos (run_inst : CoreState α → CoreState α) :
    ∀ (n : Nat) (c : CoreState α),
      0 < ((run_inst)^[n] c).get_sample_queue_length →
      ∃ r, audioLoop run_inst n c = some r := by
  intro n
  induction n with
  | zero =>
    intro c hpos
    rw [Function.iterate_zero_apply] at hpos
    rw [audioLoop]
    simp only [Nat.pos_iff_ne_zero.mp hpos, reduceIte]
    exact ⟨(c, []), rfl⟩
  | succ n ih =>
    intro c hpos
    rw [audioLoop]
    by_cases hq : c.get_sample_queue_length = 0
    · rw [Function.iterate_succ_apply] at hpos
      obtain ⟨r, hr⟩ := ih (run_inst c) hpos
      simp only [hq, reduceIte, hr]
      exact ⟨(r.1, CoreCall.runInst :: r.2), rfl⟩
    · simp only [hq, reduceIte]
      exact ⟨(c, []), rfl⟩

/-- With an empty queue and a `run_inst` that never produces samples, the
instruction loop fails for every amount of fuel. -/
theorem audioLoop_id_none :
    ∀ (fuel : Nat),
      audioLoop (id : CoreState Unit → CoreState Unit) fuel
        ⟨[], fun _ => false, ()⟩ = none := by
  intro fuel
  induction fuel with
  | zero => rw [audioLoop]; simp [CoreState.get_sample_queue_length]
  | succ n ih => rw [audioLoop]; simp [CoreState.get_sample_queue_length, ih]

/-- C1: in AudioLocked (AudioCallback) mode, every completed invocation of
the sample producer, starting from any core state, performs zero or more
`run_inst` calls until the pending sample count is positive (every
intermediate state has a zero count), then performs exactly one `get_sample`
(pop) call and returns its value, decreasing the pending sample count by
exactly one. -/
theorem C1_audiolocked_pull (α : Type) (run_inst : CoreState α → CoreState α)
    (fuel : Nat) (c : CoreState α) (v : Sample) (c' : CoreState α)
    (tr : List CoreCall)
    (h : get_sample_audio run_inst fuel c = some (v, c', tr)) :
    ∃ k, tr = List.replicate k CoreCall.runInst ++ [CoreCall.getSample] ∧
      (∀ j, j < k → ((run_inst)^[j] c).get_sample_queue_length = 0) ∧
      0 < ((run_inst)^[k] c).get_sample_queue_length ∧
      v = ((run_inst)^[k] c).queue.headI ∧
      c'.get_sample_queue_length + 1 = ((run_inst)^[k] c).get_sample_queue_length := by
  rw [get_sample_audio] at h
  cases hloop : audioLoop run_inst fuel c with
  | none => rw [hloop] at h; simp at h
  | some r =>
    obtain ⟨cExit, trLoop⟩ := r
    rw [hloop] at h
    simp only [Option.some.injEq, Prod.mk.injEq] at h
    obtain ⟨hv, hc', htr⟩ := h
    obtain ⟨k, _, htrLoop, hcExit, hpos, hzero⟩ :=
      audioLoop_spec run_inst fuel c cExit trLoop hloop
    refine ⟨k, ?_, ?_, ?_, ?_, ?_⟩
    · rw [← htr, htrLoop]
    · exact hzero
    · rw [← hcExit]; exact hpos
    · rw [← hv, ← hcExit, CoreState.get_sample]
    · have hlen : 0 < cExit.queue.length := by
        simpa [CoreState.get_sample_queue_length] using hpos
      rw [← hc', ← hcExit]
      simp only [CoreState.get_sample, CoreState.get_sample_queue_length,
        List.length_tail]
      omega

/-- Witness for C1: a core whose queue already holds the sample 2 yields a
trace with zero `run_inst` calls and one pop. -/
theorem C1_audiolocked_pull_witness :
    ∃ k, ([CoreCall.getSample] : List CoreCall)
          = List.replicate k CoreCall.runInst ++ [CoreCall.getSample] ∧
      (∀ j, j < k →
        ((id : CoreState Unit → CoreState Unit)^[j]
            ⟨[2], fun _ => false, ()⟩).get_sample_queue_length = 0) ∧
      0 < ((id : CoreState Unit → CoreState Unit)^[k]
            ⟨[2], fun _ => false, ()⟩).get_sample_queue_length ∧
      (2 : Sample) = ((id : CoreState Unit → CoreState Unit)^[k]
            ⟨[2], fun _ => false, ()⟩).queue.headI ∧
      (⟨[], fun _ => false, ()⟩ : CoreState Unit).get_sample_queue_length + 1
        = ((id : CoreState Unit → CoreState Unit)^[k]
            ⟨[2], fun _ => false, ()⟩).get_sample_queue_length :=
  C1_audiolocked_pull Unit id 0 ⟨[2], fun _ => false, ()⟩ 2
    ⟨[], fun _ => false, ()⟩ [CoreCall.getSample] rfl

/-- C9: (i) if from the current core state some finite number `n` of
`run_inst` calls makes the pending sample count positive, the AudioLocked
sample producer terminates with fuel `n`, executing at most `n` `run_inst`
calls before popping a sample; (ii) without that precondition the loop need
not terminate: there are a core and a `run_inst` for which it fails for
every amount of fuel; (iii) the FrameLocked drain loop terminates for every
core state, popping exactly the pending count of samples. -/
theorem C9_termination :
    (∀ (α : Type) (run_inst : CoreState α → CoreState α) (c : CoreState α)
        (n : Nat),
        0 < ((run_inst)^[n] c).get_sample_queue_length →
        ∃ v c' tr, get_sample_audio run_inst n c = some (v, c', tr) ∧
          tr.count CoreCall.runInst ≤ n) ∧
    (∃ (run_inst : CoreState Unit → CoreState Unit) (c : CoreState Unit),
        ∀ fuel, get_sample_audio run_inst fuel c = none) ∧
    (∀ (α : Type) (c : CoreState α),
        (drainLoop c).2 = List.replicate c.queue.length CoreCall.getSample ∧
          ((drainLoop c).1).get_sample_queue_length = 0) := by
  refine ⟨?_, ?_, ?_⟩
  · intro α run_inst c n hpos
    obtain ⟨r, hr⟩ := audioLoop_some_of_pos run_inst n c hpos
    obtain ⟨cExit, trLoop⟩ := r
    obtain ⟨k, hk, htr, _, _, _⟩ := audioLoop_spec run_inst n c cExit trLoop hr
    refine ⟨(cExit.get_sample).1, (cExit.get_sample).2,
      trLoop ++ [CoreCall.getSample], ?_, ?_⟩
    · rw [get_sample_audio, hr]
    · rw [htr]
      simp [List.count_append, List.count_replicate]
      omega
  · refine ⟨id, ⟨[], fun _ => false, ()⟩, ?_⟩
    intro fuel
    rw [get_sample_audio, audioLoop_id_none fuel]
  · intro α c
    have h := drainLoop_spec c.queue c rfl
    exact ⟨h.2, by simp [CoreState.get_sample_queue_length, h.1]⟩

/-- Witness for C9: a core whose queue becomes non-empty after zero
instructions yields a successful producer call with zero `run_inst` calls. -/
theorem C9_termination_witness :
    ∃ v c' tr,
      get_sample_audio (id : CoreState Unit → CoreState Unit) 0
          ⟨[3], fun _ => false, ()⟩ = some (v, c', tr) ∧
        tr.count CoreCall.runInst ≤ 0 :=
  C9_termination.1 Unit id ⟨[3], fun _ => false, ()⟩ 0 (by
    rw [Function.iterate_zero_apply]
    simp [CoreState.get_sample_queue_length])

/-! ## Characterization of the key loop

The spec (§4.3) describes the input-batch tick per logical index: apply the
press/release decision, then emit the edge events for that index.
`specKeyTrace` follows the spec's per-index description and is proved equal
to the trace of the embedded `keyLoop`. -/

/-- Events produced for one logical index according to the spec: the key
call decided by `keyCond`, then the rising-edge event (when the key becomes
pressed and was not), then the falling-edge event (when it becomes released
and was pressed). `prev` is the pressed state observed before the update. -/
def specKeyStepEvents [DecidableEq κ] (overrides : List κ)
    (key_pressed key_held : κ → Bool) (prev : Bool) (i : Nat) (k : κ) :
    List Event :=
  [Event.call (if keyCond overrides key_pressed key_held k then
      CoreCall.pressKey i else CoreCall.releaseKey i)]
    ++ (if keyCond overrides key_pressed key_held k && !prev then
        [Event.onKeyPressed i] else [])
    ++ (if !(keyCond overrides key_pressed key_held k) && prev then
        [Event.onKeyReleased i] else [])

/-- Spec-side trace of the key loop: concatenation of the per-index event
blocks, where the pressed state observed at index `j` is the initial one
`keys0 j` (earlier indices never touch later ones). -/
def specKeyTrace [DecidableEq κ] (overrides : List κ)
    (key_pressed key_held : κ → Bool) (keys0 : Nat → Bool) :
    Nat → List κ → List Event
  | _, [] => []
  | s, k :: rest =>
    specKeyStepEvents overrides key_pressed key_held (keys0 s) s k
      ++ specKeyTrace overrides key_pressed key_held keys0 (s + 1) rest

/-- Pressed states after one `keyStep`: index `i` is set to the decision
`keyCond`, everything else is unchanged. -/
theorem keyStep_fst_keys [DecidableEq κ] (overrides : List κ)
    (key_pressed key_held : κ → Bool) (c : CoreState α) (i : Nat) (k : κ)
    (j : Nat) :
    ((keyStep overrides key_pressed key_held c i k).1).keys j
      = if j = i then keyCond overrides key_pressed key_held k
        else c.keys j := by
  cases hcond : keyCond overrides key_pressed key_held k with
  | true => simp [keyStep, hcond, CoreState.press_key]
  | false => simp [keyStep, hcond, CoreState.release_key]

/-- Events of one `keyStep` are the spec block for that index, with the
previous pressed state read off the incoming core state. -/
theorem keyStep_snd [DecidableEq κ] (overrides : List κ)
    (key_pressed key_held : κ → Bool) (c : CoreState α) (i : Nat) (k : κ) :
    (keyStep overrides key_pressed key_held c i k).2
      = specKeyStepEvents overrides key_pressed key_held (c.keys i) i k := by
  cases hcond : keyCond overrides key_pressed key_held k with
  | true =>
    simp [keyStep, specKeyStepEvents, hcond, CoreState.get_key_pressed,
      CoreState.press_key]
  | false =>
    simp [keyStep, specKeyStepEvents, hcond, CoreState.get_key_pressed,
      CoreState.release_key]

/-- The spec trace only depends on the initial pressed states at the indices
it covers. -/
theorem specKeyTrace_congr [DecidableEq κ] (overrides : List κ)
    (key_pressed key_held : κ → Bool) (keys0 keys1 : Nat → Bool) :
    ∀ (ks : List κ) (s : Nat), (∀ j, s ≤ j → keys0 j = keys1 j) →
      specKeyTrace overrides key_pressed key_held keys0 s ks
        = specKeyTrace overrides key_pressed key_held keys1 s ks := by
  intro ks
  induction ks with
  | nil => intro s _; rfl
  | cons k rest ih =>
    intro s h
    simp only [specKeyTrace]
    rw [h s (Nat.le_refl s), ih (s + 1) (fun j hj => h j (by omega))]

/-- The trace of the embedded key loop is the spec trace. -/
theorem keyLoop_snd [DecidableEq κ] (overrides : List κ)
    (key_pressed key_held : κ → Bool) :
    ∀ (ks : List κ) (s : Nat) (c : CoreState α),
      (keyLoop overrides key_pressed key_held s ks c).2
        = specKeyTrace overrides key_pressed key_held c.keys s ks := by
  intro ks
  induction ks with
  | nil => intro s c; rfl
  | cons k rest ih =>
    intro s c
    simp only [keyLoop, specKeyTrace]
    rw [keyStep_snd, ih (s + 1)]
    congr 1
    apply specKeyTrace_congr
    intro j hj
    rw [keyStep_fst_keys, if_neg (by omega)]

/-- The key loop leaves pressed states below the start index unchanged. -/
theorem keyLoop_fst_keys_lt [DecidableEq κ] (overrides : List κ)
    (key_pressed key_held : κ → Bool) :
    ∀ (ks : List κ) (s : Nat) (c : CoreState α) (j : Nat), j < s →
      ((keyLoop overrides key_pressed key_held s ks c).1).keys j = c.keys j := by
  intro ks
  induction ks with
  | nil => intro s c j _; rfl
  | cons k rest ih =>
    intro s c j hj
    simp only [keyLoop]
    rw [ih (s + 1) _ j (by omega), keyStep_fst_keys, if_neg (by omega)]

/-- After the key loop, the pressed state of the index mapped to `k` is
exactly the press/release decision `keyCond` for `k`. -/
theorem keyLoop_fst_keys_at [DecidableEq κ] (overrides : List κ)
    (key_pressed key_held : κ → Bool) :
    ∀ (ks : List κ) (s t : Nat) (c : CoreState α) (k : κ), ks[t]? = some k →
      ((keyLoop overrides key_pressed key_held s ks c).1).keys (s + t)
        = keyCond overrides key_pressed key_held k := by
  intro ks
  induction ks with
  | nil => intro s t c k hk; simp at hk
  | cons k' rest ih =>
    intro s t c k hk
    cases t with
    | zero =>
      simp only [List.getElem?_cons_zero, Option.some.injEq] at hk
      simp only [keyLoop, Nat.add_zero]
      rw [keyLoop_fst_keys_lt overrides key_pressed key_held rest (s + 1) _ s
        (by omega)]
      rw [keyStep_fst_keys, if_pos rfl, hk]
    | succ t' =>
      simp only [List.getElem?_cons_succ] at hk
      simp only [keyLoop]
      have harith : s + (t' + 1) = (s + 1) + t' := by omega
      rw [harith, ih (s + 1) t' _ k hk]

/-- Event counts of one per-index block: the block holds exactly the events
of its own index, decided by `keyCond` and the previous pressed state. -/
theorem specKeyStepEvents_counts [DecidableEq κ] (overrides : List κ)
    (key_pressed key_held : κ → Bool) (prev : Bool) (j : Nat) (k : κ)
    (i : Nat) :
    ((specKeyStepEvents overrides key_pressed key_held prev j k).count
        (Event.call (CoreCall.pressKey i))
      = if i = j ∧ keyCond overrides key_pressed key_held k = true then 1
        else 0) ∧
    ((specKeyStepEvents overrides key_pressed key_held prev j k).count
        (Event.call (CoreCall.releaseKey i))
      = if i = j ∧ keyCond overrides key_pressed key_held k = false then 1
        else 0) ∧
    ((specKeyStepEvents overrides key_pressed key_held prev j k).count
        (Event.onKeyPressed i)
      = if i = j ∧ keyCond overrides key_pressed key_held k = true ∧
            prev = false then 1
        else 0) ∧
    ((specKeyStepEvents overrides key_pressed key_held prev j k).count
        (Event.onKeyReleased i)
      = if i = j ∧ keyCond overrides key_pressed key_held k = false ∧
            prev = true then 1
        else 0) ∧
    ((specKeyStepEvents overrides key_pressed key_held prev j k).count
        (Event.call CoreCall.runFrame) = 0) ∧
    ((specKeyStepEvents overrides key_pressed key_held prev j k).count
        (Event.call CoreCall.runInst) = 0) := by
  cases hcond : keyCond overrides key_pressed key_held k <;>
    cases prev <;>
      by_cases hij : i = j <;>
        simp [specKeyStepEvents, hcond, hij, List.count_cons, List.count_nil,
          List.count_append, List.count_singleton]

/-- A spec trace starting at index `s` holds no events for indices below
`s`, and never holds `run_inst` or `run_frame` calls. -/
theorem specKeyTrace_count_lt [DecidableEq κ] (overrides : List κ)
    (key_pressed key_held : κ → Bool) (keys0 : Nat → Bool) :
    ∀ (ks : List κ) (s i : Nat), i < s →
      ((specKeyTrace overrides key_pressed key_held keys0 s ks).count
          (Event.call (CoreCall.pressKey i)) = 0) ∧
      ((specKeyTrace overrides key_pressed key_held keys0 s ks).count
          (Event.call (CoreCall.releaseKey i)) = 0) ∧
      ((specKeyTrace overrides key_pressed key_held keys0 s ks).count
          (Event.onKeyPressed i) = 0) ∧
      ((specKeyTrace overrides key_pressed key_held keys0 s ks).count
          (Event.onKeyReleased i) = 0) := by
  intro ks
  induction ks with
  | nil => intro s i _; simp [specKeyTrace]
  | cons k rest ih =>
    intro s i hi
    obtain ⟨h1, h2, h3, h4, _, _⟩ :=
      specKeyStepEvents_counts overrides key_pressed key_held (keys0 s) s k i
    obtain ⟨g1, g2, g3, g4⟩ := ih (s + 1) i (by omega)
    have hne : ¬i = s := by omega
    simp only [specKeyTrace, List.count_append]
    refine ⟨?_, ?_, ?_, ?_⟩
    · rw [h1, g1, if_neg (by rintro ⟨h, -⟩; exact hne h)]
    · rw [h2, g2, if_neg (by rintro ⟨h, -⟩; exact hne h)]
    · rw [h3, g3, if_neg (by rintro ⟨h, -⟩; exact hne h)]
    · rw [h4, g4, if_neg (by rintro ⟨h, -⟩; exact hne h)]

/-- The spec trace never holds `run_inst` or `run_frame` calls. -/
theorem specKeyTrace_count_run [DecidableEq κ] (overrides : List κ)
    (key_pressed key_held : κ → Bool) (keys0 : Nat → Bool) :
    ∀ (ks : List κ) (s : Nat),
      ((specKeyTrace overrides key_pressed key_held keys0 s ks).count
          (Event.call CoreCall.runFrame) = 0) ∧
      ((specKeyTrace overrides key_pressed key_held keys0 s ks).count
          (Event.call CoreCall.runInst) = 0) := by
  intro ks
  induction ks with
  | nil => intro s; simp [specKeyTrace]
  | cons k rest ih =>
    intro s
    obtain ⟨-, -, -, -, h5, h6⟩ :=
      specKeyStepEvents_counts overrides key_pressed key_held (keys0 s) s k 0
    obtain ⟨g5, g6⟩ := ih (s + 1)
    simp only [specKeyTrace, List.count_append]
    exact ⟨by rw [h5, g5], by rw [h6, g6]⟩

/-- Event counts of the whole spec trace at the index mapped to `k`:
exactly one key call, decided by `keyCond`, and at most one edge event,
decided by `keyCond` against the initial pressed state. -/
theorem specKeyTrace_count_at [DecidableEq κ] (overrides : List κ)
    (key_pressed key_held : κ → Bool) (keys0 : Nat → Bool) :
    ∀ (ks : List κ) (s t : Nat) (k : κ), ks[t]? = some k →
      ((specKeyTrace overrides key_pressed key_held keys0 s ks).count
          (Event.call (CoreCall.pressKey (s + t)))
        = if keyCond overrides key_pressed key_held k = true then 1 else 0) ∧
      ((specKeyTrace overrides key_pressed key_held keys0 s ks).count
          (Event.call (CoreCall.releaseKey (s + t)))
        = if keyCond overrides key_pressed key_held k = false then 1
          else 0) ∧
      ((specKeyTrace overrides key_pressed key_held keys0 s ks).count
          (Event.onKeyPressed (s + t))
        = if keyCond overrides key_pressed key_held k = true ∧
              keys0 (s + t) = false then 1
          else 0) ∧
      ((specKeyTrace overrides key_pressed key_held keys0 s ks).count
          (Event.onKeyReleased (s + t))
        = if keyCond overrides key_pressed key_held k = false ∧
              keys0 (s + t) = true then 1
          else 0) := by
  intro ks
  induction ks with
  | nil => intro s t k hk; simp at hk
  | cons k' rest ih =>
    intro s t k hk
    cases t with
    | zero =>
      simp only [List.getElem?_cons_zero, Option.some.injEq] at hk
      subst hk
      obtain ⟨h1, h2, h3, h4, -, -⟩ :=
        specKeyStepEvents_counts overrides key_pressed key_held (keys0 s) s k'
          (s + 0)
      obtain ⟨g1, g2, g3, g4⟩ :=
        specKeyTrace_count_lt overrides key_pressed key_held keys0 rest (s + 1)
          (s + 0) (by omega)
      have heq : s + 0 = s := Nat.add_zero s
      simp only [specKeyTrace, List.count_append]
      refine ⟨?_, ?_, ?_, ?_⟩
      · rw [h1, g1]; simp [heq]
      · rw [h2, g2]; simp [heq]
      · rw [h3, g3]; simp [heq]
      · rw [h4, g4]; simp [heq]
    | succ t' =>
      simp only [List.getElem?_cons_succ] at hk
      obtain ⟨h1, h2, h3, h4, -, -⟩ :=
        specKeyStepEvents_counts overrides key_pressed key_held (keys0 s) s k'
          (s + (t' + 1))
      obtain ⟨g1, g2, g3, g4⟩ := ih (s + 1) t' k hk
      have harith : s + 1 + t' = s + (t' + 1) := by omega
      rw [harith] at g1 g2 g3 g4
      have hne : ¬s + (t' + 1) = s := by omega
      simp only [specKeyTrace, List.count_append]
      refine ⟨?_, ?_, ?_, ?_⟩
      · rw [h1, g1, if_neg (by rintro ⟨h, -⟩; exact hne h), Nat.zero_add]
      · rw [h2, g2, if_neg (by rintro ⟨h, -⟩; exact hne h), Nat.zero_add]
      · rw [h3, g3, if_neg (by rintro ⟨h, -⟩; exact hne h), Nat.zero_add]
      · rw [h4, g4, if_neg (by rintro ⟨h, -⟩; exact hne h), Nat.zero_add]

/-- Trace of one input-batch tick: the key-loop trace, followed by a single
`run_frame` call exactly when the sync mode is `VSync`. -/
theorem inputTick_snd (instK : DecidableEq κ) (sync_mode : SyncModes)
    (overrides keymap : List κ) (key_pressed key_held : κ → Bool)
    (run_frame : CoreState α → CoreState α) (c : CoreState α) :
    (inputTick sync_mode overrides keymap key_pressed key_held run_frame c).2
      = specKeyTrace overrides key_pressed key_held c.keys 0 keymap
          ++ (if sync_mode = SyncModes.VSync then
              [Event.call CoreCall.runFrame] else []) := by
  cases sync_mode with
  | VSync => simp [inputTick, keyLoop_snd]
  | AudioCallback => simp [inputTick, keyLoop_snd]

/-- C3: `run_frame` is called only in `VSync` (FrameLocked) mode and only by
the UI tick, exactly once per tick and after all key transitions (it is the
last event of the tick trace); the `AudioCallback` UI tick calls neither
`run_inst` nor `run_frame`; the `VSync` sample producer calls neither; the
`AudioCallback` sample producer never calls `run_frame`; the redraw tick
calls neither. -/
theorem C3_run_frame_discipline :
    (∀ (κ α : Type) (instK : DecidableEq κ) (overrides keymap : List κ)
        (key_pressed key_held : κ → Bool)
        (run_frame : CoreState α → CoreState α) (c : CoreState α),
        ∃ keyTr,
          (inputTick SyncModes.VSync overrides keymap key_pressed key_held
              run_frame c).2 = keyTr ++ [Event.call CoreCall.runFrame] ∧
            keyTr.count (Event.call CoreCall.runFrame) = 0 ∧
            keyTr.count (Event.call CoreCall.runInst) = 0) ∧
    (∀ (κ α : Type) (instK : DecidableEq κ) (overrides keymap : List κ)
        (key_pressed key_held : κ → Bool)
        (run_frame : CoreState α → CoreState α) (c : CoreState α),
        (inputTick SyncModes.AudioCallback overrides keymap key_pressed
            key_held run_frame c).2.count (Event.call CoreCall.runFrame) = 0 ∧
        (inputTick SyncModes.AudioCallback overrides keymap key_pressed
            key_held run_frame c).2.count (Event.call CoreCall.runInst) = 0) ∧
    (∀ (α : Type) (c : CoreState α),
        ((get_sample_vsync c).2.2).count CoreCall.runInst = 0 ∧
        ((get_sample_vsync c).2.2).count CoreCall.runFrame = 0) ∧
    (∀ (α : Type) (run_inst : CoreState α → CoreState α) (fuel : Nat)
        (c : CoreState α) (v : Sample) (c' : CoreState α)
        (tr : List CoreCall),
        get_sample_audio run_inst fuel c = some (v, c', tr) →
          tr.count CoreCall.runFrame = 0) ∧
    (∀ (α : Type) (c : CoreState α),
        ((redrawTick c).2).count (Event.call CoreCall.runFrame) = 0 ∧
        ((redrawTick c).2).count (Event.call CoreCall.runInst) = 0) := by
  refine ⟨?_, ?_, ?_, ?_, ?_⟩
  · intro κ α instK overrides keymap key_pressed key_held run_frame c
    refine ⟨specKeyTrace overrides key_pressed key_held c.keys 0 keymap,
      ?_, ?_, ?_⟩
    · rw [inputTick_snd]; simp
    · exact (specKeyTrace_count_run overrides key_pressed key_held c.keys
        keymap 0).1
    · exact (specKeyTrace_count_run overrides key_pressed key_held c.keys
        keymap 0).2
  · intro κ α instK overrides keymap key_pressed key_held run_frame c
    have h := inputTick_snd instK SyncModes.AudioCallback overrides keymap
      key_pressed key_held run_frame c
    simp only [reduceCtorEq, if_false, List.append_nil] at h
    rw [h]
    exact ⟨(specKeyTrace_count_run overrides key_pressed key_held c.keys
        keymap 0).1,
      (specKeyTrace_count_run overrides key_pressed key_held c.keys
        keymap 0).2⟩
  · intro α c
    have h := (drainLoop_spec c.queue c rfl).2
    constructor <;> simp [get_sample_vsync, h, List.count_replicate]
  · intro α run_inst fuel c v c' tr h
    rw [get_sample_audio] at h
    cases hloop : audioLoop run_inst fuel c with
    | none => rw [hloop] at h; simp at h
    | some r =>
      obtain ⟨cExit, trLoop⟩ := r
      rw [hloop] at h
      simp only [Option.some.injEq, Prod.mk.injEq] at h
      obtain ⟨k, _, htr, -⟩ :=
        audioLoop_spec run_inst fuel c cExit trLoop hloop
      rw [← h.2.2, htr]
      simp [List.count_append, List.count_replicate]
  · intro α c
    constructor <;> simp [redrawTick]

/-- Witness for C3 at a concrete producer invocation: the trace of a
successful AudioCallback pull with fuel 0 holds no `run_frame` call. -/
theorem C3_run_frame_discipline_witness :
    ([CoreCall.getSample] : List CoreCall).count CoreCall.runFrame = 0 :=
  C3_run_frame_discipline.2.2.2.1 Unit id 0 ⟨[2], fun _ => false, ()⟩ 2
    ⟨[], fun _ => false, ()⟩ [CoreCall.getSample] rfl

/-- Edge-event recognizer (the outbound `on_key_pressed` / `on_key_released`
events). -/
def isEdgeEvent : Event → Bool
  | Event.onKeyPressed _ => true
  | Event.onKeyReleased _ => true
  | _ => false

/-- Recognizer for `press_key` / `release_key` calls on the Core. -/
def isKeyCall : Event → Bool
  | Event.call (CoreCall.pressKey _) => true
  | Event.call (CoreCall.releaseKey _) => true
  | _ => false

/-- Holds when every edge event of the trace comes after every key call,
i.e. when edge events are batched after all indices are processed. -/
def edgesAfterAllKeyCalls (tr : List Event) : Bool :=
  (tr.dropWhile (fun e => !(isEdgeEvent e))).all (fun e => !(isKeyCall e))

/-- Counterexample to C4's ordering clause: with keymap [0, 1], both keys
physically pressed and no key previously down, the tick trace interleaves
the edge events with the key calls — `on_key_pressed 0` is emitted before
`press_key 1` — so edge events are not emitted after processing all
indices. -/
theorem C4_counterexample :
    (inputTick SyncModes.AudioCallback ([] : List Nat) [0, 1]
        (fun _ => true) (fun _ => false) id
        ⟨[], fun _ => false, ()⟩).2
      = [Event.call (CoreCall.pressKey 0), Event.onKeyPressed 0,
         Event.call (CoreCall.pressKey 1), Event.onKeyPressed 1] ∧
    edgesAfterAllKeyCalls
        ((inputTick SyncModes.AudioCallback ([] : List Nat) [0, 1]
            (fun _ => true) (fun _ => false) id
            ⟨[], fun _ => false, ()⟩).2)
      = false := by
  constructor <;> rfl

/-- C4 (amended): per input-batch tick and logical index `i`, the pressed
state applied by the key loop is the press/release decision;
`on_key_pressed i` is emitted exactly once when the applied state is pressed
and the state at the start of the tick was not, `on_key_released i` exactly
once in the opposite transition, and no edge event is emitted for `i` when
the state is unchanged; the tick trace is the concatenation of per-index
blocks, each index's edge events emitted immediately after its key call
(not batched after all indices). -/
theorem C4_edge_events_amended (κ α : Type) (instK : DecidableEq κ)
    (sync_mode : SyncModes) (overrides keymap : List κ)
    (key_pressed key_held : κ → Bool) (run_frame : CoreState α → CoreState α)
    (c : CoreState α) (i : Nat) (k : κ) (hk : keymap[i]? = some k) :
    ((keyLoop overrides key_pressed key_held 0 keymap c).1).get_key_pressed i
        = keyCond overrides key_pressed key_held k ∧
    ((inputTick sync_mode overrides keymap key_pressed key_held run_frame
          c).2.count (Event.onKeyPressed i)
      = if ((keyLoop overrides key_pressed key_held 0 keymap
              c).1).get_key_pressed i = true ∧
            c.get_key_pressed i = false then 1 else 0) ∧
    ((inputTick sync_mode overrides keymap key_pressed key_held run_frame
          c).2.count (Event.onKeyReleased i)
      = if ((keyLoop overrides key_pressed key_held 0 keymap
              c).1).get_key_pressed i = false ∧
            c.get_key_pressed i = true then 1 else 0) ∧
    ((keyLoop overrides key_pressed key_held 0 keymap c).2
      = specKeyTrace overrides key_pressed key_held c.keys 0 keymap) := by
  have happ :
      ((keyLoop overrides key_pressed key_held 0 keymap c).1).get_key_pressed i
        = keyCond overrides key_pressed key_held k := by
    have h := keyLoop_fst_keys_at overrides key_pressed key_held keymap 0 i c
      k hk
    rw [Nat.zero_add] at h
    exact h
  obtain ⟨-, -, h3, h4⟩ :=
    specKeyTrace_count_at overrides key_pressed key_held c.keys keymap 0 i k
      hk
  rw [Nat.zero_add] at h3 h4
  have hedge : ∀ j, (if sync_mode = SyncModes.VSync then
        [Event.call CoreCall.runFrame] else []).count (Event.onKeyPressed j)
      = 0 ∧
      (if sync_mode = SyncModes.VSync then
        [Event.call CoreCall.runFrame] else []).count (Event.onKeyReleased j)
      = 0 := by
    intro j
    cases sync_mode <;> simp
  refine ⟨happ, ?_, ?_, keyLoop_snd overrides key_pressed key_held keymap 0 c⟩
  · rw [inputTick_snd instK, List.count_append, h3, (hedge i).1, Nat.add_zero,
      happ]
    rfl
  · rw [inputTick_snd instK, List.count_append, h4, (hedge i).2, Nat.add_zero,
      happ]
    rfl

/-- Witness for C4 (amended) at keymap [5], key physically held, initial
state released: exactly one rising-edge event is emitted. -/
theorem C4_edge_events_amended_witness :
    ((keyLoop ([] : List Nat) (fun _ => false) (fun _ => true) 0 [5]
          (⟨[], fun _ => false, ()⟩ : CoreState Unit)).1).get_key_pressed 0
        = keyCond [] (fun _ => false) (fun _ => true) 5 ∧
    ((inputTick SyncModes.AudioCallback ([] : List Nat) [5] (fun _ => false)
          (fun _ => true) id
          (⟨[], fun _ => false, ()⟩ : CoreState Unit)).2.count
          (Event.onKeyPressed 0)
      = if ((keyLoop ([] : List Nat) (fun _ => false) (fun _ => true) 0 [5]
              (⟨[], fun _ => false, ()⟩ : CoreState Unit)).1).get_key_pressed
              0 = true ∧
            (⟨[], fun _ => false, ()⟩ : CoreState Unit).get_key_pressed 0
              = false then 1 else 0) ∧
    ((inputTick SyncModes.AudioCallback ([] : List Nat) [5] (fun _ => false)
          (fun _ => true) id
          (⟨[], fun _ => false, ()⟩ : CoreState Unit)).2.count
          (Event.onKeyReleased 0)
      = if ((keyLoop ([] : List Nat) (fun _ => false) (fun _ => true) 0 [5]
              (⟨[], fun _ => false, ()⟩ : CoreState Unit)).1).get_key_pressed
              0 = false ∧
            (⟨[], fun _ => false, ()⟩ : CoreState Unit).get_key_pressed 0
              = true then 1 else 0) ∧
    ((keyLoop ([] : List Nat) (fun _ => false) (fun _ => true) 0 [5]
          (⟨[], fun _ => false, ()⟩ : CoreState Unit)).2
      = specKeyTrace [] (fun _ => false) (fun _ => true)
          (⟨[], fun _ => false, ()⟩ : CoreState Unit).keys 0 [5]) :=
  C4_edge_events_amended Nat Unit inferInstance SyncModes.AudioCallback []
    [5] (fun _ => false) (fun _ => true) id ⟨[], fun _ => false, ()⟩ 0 5 rfl

/-- C5: on every input-batch tick and logical index `i` mapped to physical
key `k`: if the override list contains `k`, or `k` is physically
just-pressed or held, then `press_key i` is called exactly once (and
`release_key i` not at all); otherwise `release_key i` is called exactly
once (and `press_key i` not at all); in particular an asserted override
forces `press_key i` regardless of the physical poll state. -/
theorem C5_override_precedence (κ α : Type) (instK : DecidableEq κ)
    (sync_mode : SyncModes) (overrides keymap : List κ)
    (key_pressed key_held : κ → Bool) (run_frame : CoreState α → CoreState α)
    (c : CoreState α) (i : Nat) (k : κ) (hk : keymap[i]? = some k) :
    ((inputTick sync_mode overrides keymap key_pressed key_held run_frame
          c).2.count (Event.call (CoreCall.pressKey i))
      = if (overrides.contains k || key_pressed k || key_held k) = true
        then 1 else 0) ∧
    ((inputTick sync_mode overrides keymap key_pressed key_held run_frame
          c).2.count (Event.call (CoreCall.releaseKey i))
      = if (overrides.contains k || key_pressed k || key_held k) = true
        then 0 else 1) ∧
    (overrides.contains k = true →
      (inputTick sync_mode overrides keymap key_pressed key_held run_frame
          c).2.count (Event.call (CoreCall.pressKey i)) = 1) := by
  obtain ⟨h1, h2, -, -⟩ :=
    specKeyTrace_count_at overrides key_pressed key_held c.keys keymap 0 i k
      hk
  rw [Nat.zero_add] at h1 h2
  have hkc : ∀ j, (if sync_mode = SyncModes.VSync then
        [Event.call CoreCall.runFrame] else []).count
        (Event.call (CoreCall.pressKey j)) = 0 ∧
      (if sync_mode = SyncModes.VSync then
        [Event.call CoreCall.runFrame] else []).count
        (Event.call (CoreCall.releaseKey j)) = 0 := by
    intro j
    cases sync_mode <;> simp
  have hp :
      (inputTick sync_mode overrides keymap key_pressed key_held run_frame
          c).2.count (Event.call (CoreCall.pressKey i))
        = if keyCond overrides key_pressed key_held k = true then 1 else 0 := by
    rw [inputTick_snd instK, List.count_append, h1, (hkc i).1, Nat.add_zero]
  have hr :
      (inputTick sync_mode overrides keymap key_pressed key_held run_frame
          c).2.count (Event.call (CoreCall.releaseKey i))
        = if keyCond overrides key_pressed key_held k = false then 1
          else 0 := by
    rw [inputTick_snd instK, List.count_append, h2, (hkc i).2, Nat.add_zero]
  refine ⟨?_, ?_, ?_⟩
  · rw [hp]; rfl
  · rw [hr]
    cases hc : keyCond overrides key_pressed key_held k with
    | true =>
      rw [if_neg (by simp), if_pos]
      exact hc
    | false =>
      rw [if_pos rfl, if_neg (by simp [keyCond] at hc; simp [hc])]
  · intro hin
    rw [hp, if_pos]
    simp only [keyCond, hin, Bool.true_or]

/-- Witness for C5: physical key 7 asserted in the override list with no
physical poll signal yields exactly one `press_key 0` call and no
`release_key 0` call. -/
theorem C5_override_precedence_witness :
    ((inputTick SyncModes.AudioCallback [7] [7] (fun _ => false)
          (fun _ => false) id
          (⟨[], fun _ => false, ()⟩ : CoreState Unit)).2.count
          (Event.call (CoreCall.pressKey 0))
      = if (([7] : List Nat).contains 7 || false || false) = true
        then 1 else 0) ∧
    ((inputTick SyncModes.AudioCallback [7] [7] (fun _ => false)
          (fun _ => false) id
          (⟨[], fun _ => false, ()⟩ : CoreState Unit)).2.count
          (Event.call (CoreCall.releaseKey 0))
      = if (([7] : List Nat).contains 7 || false || false) = true
        then 0 else 1) ∧
    (([7] : List Nat).contains 7 = true →
      (inputTick SyncModes.AudioCallback [7] [7] (fun _ => false)
          (fun _ => false) id
          (⟨[], fun _ => false, ()⟩ : CoreState Unit)).2.count
          (Event.call (CoreCall.pressKey 0)) = 1) :=
  C5_override_precedence Nat Unit inferInstance SyncModes.AudioCallback [7]
    [7] (fun _ => false) (fun _ => false) id ⟨[], fun _ => false, ()⟩ 0 7 rfl

/-- Sample producer for concrete checks: returns 0 on its first invocation
and 1 afterwards, counting invocations in its state. -/
def countingPop : Nat → Sample × Nat :=
  fun s => (if s = 0 then 0 else 1, s + 1)

/-- Counterexample to C6: for a callback buffer of 1 frame × 2 channels
(two interleaved slots), the producer is invoked twice — once per
interleaved slot, not once per frame — and the two channel slots of the
frame receive different values (0 and 1), not a single shared return
value. -/
theorem C6_counterexample :
    output_data_fn countingPop (1 * 2) 0 = ([0, 1], 2) ∧
    (output_data_fn countingPop (1 * 2) 0).2 ≠ 1 ∧
    (output_data_fn countingPop (1 * 2) 0).1.getD 0 0
      ≠ (output_data_fn countingPop (1 * 2) 0).1.getD 1 0 := by
  refine ⟨rfl, by decide, by decide⟩

/-- C6 (amended): for each interleaved sample slot of the requested buffer
(frames × channels slots in total), the sample producer is invoked exactly
once — the final state is the producer's state transformer iterated once
per slot — and each slot is written with the return value of its own
invocation. -/
theorem C6_per_slot_invocation (σ : Type) (get_sample : σ → Sample × σ)
    (n : Nat) (s : σ) :
    (output_data_fn get_sample n s).1.length = n ∧
    (output_data_fn get_sample n s).2 = (fun t => (get_sample t).2)^[n] s ∧
    ∀ j, j < n →
      (output_data_fn get_sample n s).1.getD j 0
        = (get_sample ((fun t => (get_sample t).2)^[j] s)).1 := by
  induction n generalizing s with
  | zero => exact ⟨rfl, rfl, by omega⟩
  | succ n ih =>
    obtain ⟨ih1, ih2, ih3⟩ := ih (get_sample s).2
    refine ⟨?_, ?_, ?_⟩
    · simp only [output_data_fn, List.length_cons, ih1]
    · simp only [output_data_fn, ih2, Function.iterate_succ_apply]
    · intro j hj
      cases j with
      | zero => simp [output_data_fn]
      | succ j' =>
        simp only [output_data_fn, List.getD_cons_succ]
        rw [ih3 j' (by omega), Function.iterate_succ_apply]

/-- Witness for C6 (amended) with the counting producer on a two-slot
buffer: two invocations, and slot 1 carries the second invocation's
value. -/
theorem C6_per_slot_invocation_witness :
    (output_data_fn countingPop 2 0).1.length = 2 ∧
    (output_data_fn countingPop 2 0).2 = (fun t => (countingPop t).2)^[2] 0 ∧
    (output_data_fn countingPop 2 0).1.getD 1 0
      = (countingPop ((fun t => (countingPop t).2)^[1] 0)).1 := by
  have h := C6_per_slot_invocation Nat countingPop 2 0
  exact ⟨h.1, h.2.1, h.2.2 1 (by omega)⟩

/-! ## Lemmas about the override vector (C7) -/

/-- Vec::swap_remove distributes over a cons for positive indices (the tail
being non-empty). -/
theorem swapRemove_cons (x : κ) (xs : List κ) (j : Nat) (h : xs ≠ []) :
    swapRemove (x :: xs) (j + 1) = x :: swapRemove xs j := by
  cases xs with
  | nil => exact absurd rfl h
  | cons y ys =>
    simp only [swapRemove, List.getLast?_cons_cons,
      List.getLast?_eq_getLast (y :: ys) (List.cons_ne_nil y ys),
      List.set_cons_succ]
    cases j with
    | zero => rw [List.set_cons_zero, List.dropLast_cons₂]
    | succ j' => rw [List.set_cons_succ, List.dropLast_cons₂]

/-- Swap-removing the element at a valid index yields a permutation of the
list with that element taken out in front. -/
theorem swapRemove_perm :
    ∀ (l : List κ) (i : Nat) (a : κ), l[i]? = some a →
      (a :: swapRemove l i).Perm l := by
  intro l
  induction l with
  | nil => intro i a h; simp at h
  | cons x xs ih =>
    intro i a h
    cases i with
    | zero =>
      rw [List.getElem?_cons_zero, Option.some.injEq] at h
      subst h
      cases xs with
      | nil =>
        simp only [swapRemove, List.getLast?_singleton, List.set_cons_zero,
          List.dropLast_single]
        exact List.Perm.refl _
      | cons y ys =>
        simp only [swapRemove, List.getLast?_cons_cons,
          List.getLast?_eq_getLast (y :: ys) (List.cons_ne_nil y ys),
          List.set_cons_zero, List.dropLast_cons₂]
        refine List.Perm.cons x ?_
        have h1 : (y :: ys).dropLast
              ++ [(y :: ys).getLast (List.cons_ne_nil y ys)] = y :: ys :=
          List.dropLast_append_getLast (List.cons_ne_nil y ys)
        have h2 := (List.perm_append_singleton
          ((y :: ys).getLast (List.cons_ne_nil y ys))
          ((y :: ys).dropLast)).symm
        rw [h1] at h2
        exact h2
    | succ j =>
      rw [List.getElem?_cons_succ] at h
      have hxs : xs ≠ [] := by
        intro hnil
        rw [hnil] at h
        simp at h
      rw [swapRemove_cons x xs j hxs]
      exact List.Perm.trans (List.Perm.swap x a _) ((ih j a h).cons x)

/-- A successful findIdx? points at an element satisfying the predicate. -/
theorem findIdx?_some_spec (p : κ → Bool) :
    ∀ (l : List κ) (i : Nat), List.findIdx? p l = some i →
      ∃ a, l[i]? = some a ∧ p a = true := by
  intro l
  induction l with
  | nil => intro i h; exact Option.noConfusion h
  | cons x xs ih =>
    intro i h
    rw [List.findIdx?_cons] at h
    by_cases hp : p x = true
    · rw [if_pos hp] at h
      rw [Option.some.injEq] at h
      exact ⟨x, by rw [← h, List.getElem?_cons_zero], hp⟩
    · rw [if_neg hp, List.findIdx?_succ] at h
      cases hfind : List.findIdx? p xs with
      | none => rw [hfind] at h; simp at h
      | some j =>
        rw [hfind] at h
        simp only [Option.map_some', Option.some.injEq] at h
        obtain ⟨a, ha, hpa⟩ := ih j hfind
        exact ⟨a, by rw [← h, List.getElem?_cons_succ, ha], hpa⟩

/-- Element counts after the exported release_key: one occurrence of the
released key is removed (if any); other keys are untouched. -/
theorem release_key_override_count (instK : DecidableEq κ) (k b : κ)
    (l : List κ) :
    (release_key_override some k l).count b
      = if k = b then l.count b - 1 else l.count b := by
  cases hfind : List.findIdx? (fun value => decide (value = k)) l with
  | none =>
    have hsame : release_key_override some k l = l := by
      show (match List.findIdx? (fun value => decide (value = k)) l with
        | some index => swapRemove l index
        | none => l) = l
      rw [hfind]
    rw [hsame]
    have hmem : k ∉ l := by
      intro hk
      have := List.findIdx?_eq_none_iff.mp hfind k hk
      simp at this
    by_cases hkb : k = b
    · subst hkb
      rw [if_pos rfl, List.count_eq_zero_of_not_mem hmem]
    · rw [if_neg hkb]
  | some i =>
    have hsame : release_key_override some k l = swapRemove l i := by
      show (match List.findIdx? (fun value => decide (value = k)) l with
        | some index => swapRemove l index
        | none => l) = swapRemove l i
      rw [hfind]
    rw [hsame]
    obtain ⟨a, ha, hpa⟩ := findIdx?_some_spec _ l i hfind
    have hak : a = k := by simpa using hpa
    subst hak
    have hperm := swapRemove_perm l i a ha
    have hcnt := hperm.count_eq b
    rw [List.count_cons] at hcnt
    by_cases hkb : a = b
    · subst hkb
      rw [if_pos rfl]
      rw [beq_self_eq_true a, if_pos rfl] at hcnt
      omega
    · rw [if_neg hkb]
      have hbeq : (a == b) = false := by simpa using hkb
      rw [hbeq] at hcnt
      simpa using hcnt

/-- Element counts after the exported press_key: one occurrence of the
pressed key is appended. -/
theorem press_key_override_count (instK : DecidableEq κ) (k b : κ)
    (l : List κ) :
    (press_key_override some k l).count b
      = l.count b + if k = b then 1 else 0 := by
  rw [press_key_override, List.count_append, List.count_singleton]
  by_cases hkb : k = b
  · subst hkb; simp
  · have : (k == b) = false := by simpa using hkb
    rw [this, if_neg hkb]
    simp

/-- One step of the occurrence-count evolution under an override
operation: press adds one occurrence of its key, release removes one (if
present). -/
def ovStep (instK : DecidableEq κ) (k : κ) (n : Nat) : OvOp κ → Nat
  | OvOp.press r => if r = k then n + 1 else n
  | OvOp.release r => if r = k then n - 1 else n

/-- Occurrence count of key `k` after a sequence of override operations
starting from the empty vector. -/
def ovCount (instK : DecidableEq κ) (k : κ) (ops : List (OvOp κ)) : Nat :=
  ops.foldl (ovStep instK k) 0

/-- The occurrence count of `k` in the override vector evolves by the
clamped counter `ovStep`. -/
theorem applyOvOps_count (instK : DecidableEq κ) (k : κ) :
    ∀ (ops : List (OvOp κ)) (l : List κ),
      (applyOvOps ops l).count k
        = ops.foldl (ovStep instK k) (l.count k) := by
  intro ops
  induction ops with
  | nil => intro l; rfl
  | cons op rest ih =>
    intro l
    cases op with
    | press r =>
      show (applyOvOps rest (press_key_override some r l)).count k = _
      rw [ih, List.foldl_cons]
      have : (press_key_override some r l).count k
          = ovStep instK k (l.count k) (OvOp.press r) := by
        rw [press_key_override_count instK r k l, ovStep]
        by_cases hr : r = k <;> simp [hr]
      rw [this]
    | release r =>
      show (applyOvOps rest (release_key_override some r l)).count k = _
      rw [ih, List.foldl_cons]
      have : (release_key_override some r l).count k
          = ovStep instK k (l.count k) (OvOp.release r) := by
        rw [release_key_override_count instK r k l, ovStep]
      rw [this]

/-- Counterexample to C7: after assert(0), assert(0), clear(0) the override
vector still contains 0 — a single clear does not make `contains` false
after repeated asserts, though the last operation applied to key 0 was the
clear. -/
theorem C7_counterexample :
    (applyOvOps [OvOp.press 0, OvOp.press 0, OvOp.release 0]
        ([] : List Nat)).contains 0 = true ∧
    ([OvOp.press 0, OvOp.press 0, OvOp.release 0].filter
        (fun op => match op with
          | OvOp.press r => r = 0
          | OvOp.release r => r = 0)).getLast?
      = some (OvOp.release 0) := by
  constructor <;> rfl

/-- C7 (amended): the override vector is a multiset, not a set: assert
appends one occurrence of the key and clear removes at most one, so after
any operation sequence the number of occurrences of `k` is the left fold of
the clamped counter (+1 on assert of `k`, monus 1 on clear of `k`), and
`contains k` holds iff that counter is positive — not iff the last
operation on `k` was an assert. -/
theorem C7_override_multiset (κ : Type) (instK : DecidableEq κ)
    (ops : List (OvOp κ)) (k : κ) :
    (applyOvOps ops []).count k = ovCount instK k ops ∧
    ((applyOvOps ops []).contains k = true ↔ 0 < ovCount instK k ops) := by
  have hcount : (applyOvOps ops []).count k = ovCount instK k ops := by
    rw [applyOvOps_count instK k ops [], List.count_nil, ovCount]
  refine ⟨hcount, ?_⟩
  rw [← hcount]
  constructor
  · intro h
    have : k ∈ applyOvOps ops [] := by
      rw [← List.elem_iff]
      exact h
    exact List.count_pos_iff.mpr this
  · intro h
    have := List.count_pos_iff.mp h
    rw [← List.elem_iff] at this
    exact this

end EmuFrontend
